import Mathlib

/-!
Verification development for the `tree-cli` repository (a `tree`-like
directory lister).  The Rust sources are shallowly embedded:

* `src/file_iterator.rs` — `FileItem`, `FileIterator` (the Walker);
* `src/filter.rs`        — `FilteredIterator` (the elision filter);
* `src/symbol.rs`        — `set_line_prefix` (the prefix renderer);
* `src/core.rs`          — `Config`, `DirTree::print_folders` (the orchestrator).

The filesystem is modelled as an immutable snapshot tree `FsNode`; a node
stands for a path, its `meta` field for the result of `symlink_metadata()`,
its `children` field for the entries `read_dir` would yield, and
`read_dir_ok` for whether `read_dir`/collect succeeds.  Compiled glob
matchers (`globset::GlobMatcher`) are modelled as boolean predicates on
file names.  Iterators are embedded as explicit state machines whose `next`
function is written off the Rust `next` method; runs are totalized with a
fuel argument that is instantiated with a provably sufficient measure, so
that all runs compute by `rfl`.
-/

namespace TreeCli

/-- Model of `std::fs::Metadata`: the only fact the program reads from
metadata for traversal control is `is_dir()` (colors/size are styling
effects of the output sink, out of scope of the claims). -/
structure MetaData where
  is_dir : Bool
deriving Repr, DecidableEq

/-- A node of the filesystem snapshot: its name, the result of
`symlink_metadata()`, the directory entries `read_dir` would list, and
whether reading the directory succeeds. -/
inductive FsNode where
  | mk (name : String) (meta : Except Unit MetaData) (children : List FsNode)
      (read_dir_ok : Bool)

def FsNode.name : FsNode → String
  | .mk n _ _ _ => n

def FsNode.meta : FsNode → Except Unit MetaData
  | .mk _ m _ _ => m

def FsNode.children : FsNode → List FsNode
  | .mk _ _ cs _ => cs

def FsNode.read_dir_ok : FsNode → Bool
  | .mk _ _ _ ok => ok

mutual

/-- Size of a snapshot node (1 + sizes of all descendants); used as the
termination measure of the traversal. -/
def FsNode.size : FsNode → Nat
  | .mk _ _ cs _ => 1 + FsNode.sizeList cs

/-- Total size of a list of snapshot nodes. -/
def FsNode.sizeList : List FsNode → Nat
  | [] => 0
  | c :: cs => FsNode.size c + FsNode.sizeList cs

end

theorem FsNode.size_pos (n : FsNode) : 1 ≤ n.size := by
  cases n with
  | mk name meta cs ok => simp [FsNode.size]

theorem FsNode.sizeList_append (l₁ l₂ : List FsNode) :
    FsNode.sizeList (l₁ ++ l₂) = FsNode.sizeList l₁ + FsNode.sizeList l₂ := by
  induction l₁ with
  | nil => simp [FsNode.sizeList]
  | cons c cs ih => simp [FsNode.sizeList, ih]; omega

theorem FsNode.sizeList_perm {l₁ l₂ : List FsNode} (h : List.Perm l₁ l₂) :
    FsNode.sizeList l₁ = FsNode.sizeList l₂ := by
  induction h with
  | nil => rfl
  | cons x _ ih => simp only [FsNode.sizeList, ih]
  | swap x y l => simp only [FsNode.sizeList]; omega
  | trans _ _ ih₁ ih₂ => omega

theorem FsNode.sizeList_sublist {l₁ l₂ : List FsNode} (h : List.Sublist l₁ l₂) :
    FsNode.sizeList l₁ ≤ FsNode.sizeList l₂ := by
  induction h with
  | slnil => exact Nat.le_refl _
  | cons a _ ih => simp [FsNode.sizeList]; have := FsNode.size_pos a; omega
  | cons₂ a _ ih => simp [FsNode.sizeList]; omega

theorem FsNode.size_eq_children (n : FsNode) :
    FsNode.size n = 1 + FsNode.sizeList n.children := by
  cases n with
  | mk name meta cs ok => simp [FsNode.size, FsNode.children]

theorem FsNode.mem_size_le {c : FsNode} {l : List FsNode} (h : c ∈ l) :
    FsNode.size c ≤ FsNode.sizeList l := by
  induction l with
  | nil => cases h
  | cons a l ih =>
    rcases List.mem_cons.mp h with h | h
    · subst h; simp only [FsNode.sizeList]; omega
    · have := ih h; simp [FsNode.sizeList]; omega

/-- `config.rs`/`core.rs` `Config`: application configuration.  The
compiled glob matchers are modelled as predicates on file names. -/
structure Config where
  colorful : Bool
  show_all : Bool
  size : Bool
  max_level : Nat
  include_glob : Option (String → Bool)
  exclude_glob : Option (String → Bool)

/-- `file_iterator.rs` `FileItem`: one filesystem node met during
traversal.  `node` stands for the stored path (it points into the
snapshot), `metadata` for the stored `io::Result<Metadata>`. -/
structure FileItem where
  file_name : String
  node : FsNode
  metadata : Except Unit MetaData
  level : Nat
  is_last : Bool

/-- `FileItem::new`: reads `symlink_metadata()` of the path and extracts the
file name. -/
def FileItem.new (n : FsNode) (level : Nat) (is_last : Bool) : FileItem :=
  { file_name := n.name, node := n, metadata := n.meta, level := level,
    is_last := is_last }

/-- `FileItem::is_dir`: `metadata.as_ref().map(|m| m.is_dir()).unwrap_or(false)`. -/
def FileItem.is_dir (i : FileItem) : Bool :=
  match i.metadata with
  | .ok m => m.is_dir
  | .error _ => false

/-- Models `str::starts_with('.')`: whether the first character is `'.'`. -/
def startsWithDot (s : String) : Bool :=
  match s.data with
  | [] => false
  | c :: _ => c == '.'

/-- Executable lexicographic order on character lists (by code point),
modelling the ordering `sort_by_key` uses on file names. -/
def charsLe : List Char → List Char → Bool
  | [], _ => true
  | _ :: _, [] => false
  | a :: as, b :: bs =>
    if a.toNat < b.toNat then true
    else if b.toNat < a.toNat then false
    else charsLe as bs

/-- Lexicographic order on names. -/
def nameLe (a b : String) : Bool :=
  charsLe a.data b.data

theorem charsLe_total (as bs : List Char) :
    charsLe as bs = true ∨ charsLe bs as = true := by
  induction as generalizing bs with
  | nil => left; rfl
  | cons a as ih =>
    cases bs with
    | nil => right; rfl
    | cons b bs =>
      by_cases h1 : a.toNat < b.toNat
      · left; simp [charsLe, h1]
      · by_cases h2 : b.toNat < a.toNat
        · right; simp [charsLe, h1, h2]
        · rcases ih bs with h | h
          · left; simp [charsLe, h1, h2, h]
          · right; simp [charsLe, h1, h2, h]

theorem charsLe_trans {as bs cs : List Char} (h1 : charsLe as bs = true)
    (h2 : charsLe bs cs = true) : charsLe as cs = true := by
  induction as generalizing bs cs with
  | nil => rfl
  | cons a as ih =>
    cases bs with
    | nil => simp [charsLe] at h1
    | cons b bs =>
      cases cs with
      | nil => simp [charsLe] at h2
      | cons c cs =>
        simp only [charsLe] at h1 h2 ⊢
        by_cases hab : a.toNat < b.toNat
        · by_cases hbc : b.toNat < c.toNat
          · have : a.toNat < c.toNat := by omega
            simp [this]
          · by_cases hcb : c.toNat < b.toNat
            · simp [hbc, hcb] at h2
            · have : a.toNat < c.toNat := by omega
              simp [this]
        · by_cases hba : b.toNat < a.toNat
          · simp [hab, hba] at h1
          · by_cases hbc : b.toNat < c.toNat
            · have : a.toNat < c.toNat := by omega
              simp [this]
            · by_cases hcb : c.toNat < b.toNat
              · simp [hbc, hcb] at h2
              · have hac : ¬ a.toNat < c.toNat := by omega
                have hca : ¬ c.toNat < a.toNat := by omega
                simp only [hab, hba, if_neg, if_false] at h1
                simp only [hbc, hcb, if_neg, if_false] at h2
                simp [hac, hca, ih h1 h2]

theorem nameLe_total (a b : String) : nameLe a b = true ∨ nameLe b a = true :=
  charsLe_total a.data b.data

theorem nameLe_trans {a b c : String} (h1 : nameLe a b = true)
    (h2 : nameLe b c = true) : nameLe a c = true :=
  charsLe_trans h1 h2

/-- Stable insertion of a node into a name-descending sorted list, placing
`x` before the first element whose name is `≤ x.name` (so elements that
were originally after `x` and compare equal stay after it). -/
def insertDesc (x : FsNode) : List FsNode → List FsNode
  | [] => [x]
  | y :: ys => if nameLe y.name x.name then x :: y :: ys else y :: insertDesc x ys

/-- Stable sort by descending name.  Models
`dir_entries.sort_by_key(|b| std::cmp::Reverse(b.file_name()))`: Rust's
`sort_by_key` is a stable sort, and a stable sort for a fixed total
preorder is unique, so stable insertion sort computes the same list. -/
def sortDesc : List FsNode → List FsNode
  | [] => []
  | x :: xs => insertDesc x (sortDesc xs)

theorem insertDesc_perm (x : FsNode) (l : List FsNode) :
    List.Perm (insertDesc x l) (x :: l) := by
  induction l with
  | nil => simp [insertDesc]
  | cons y ys ih =>
    by_cases h : nameLe y.name x.name = true
    · simp [insertDesc, h]
    · simp only [insertDesc, if_neg h]
      exact List.Perm.trans (List.Perm.cons y ih) (List.Perm.swap x y ys)

theorem sortDesc_perm (l : List FsNode) : List.Perm (sortDesc l) l := by
  induction l with
  | nil => simp [sortDesc]
  | cons x xs ih =>
    exact List.Perm.trans (insertDesc_perm x (sortDesc xs)) (List.Perm.cons x ih)

theorem insertDesc_pairwise (x : FsNode) (l : List FsNode)
    (h : l.Pairwise (fun a b => nameLe b.name a.name = true)) :
    (insertDesc x l).Pairwise (fun a b => nameLe b.name a.name = true) := by
  induction l with
  | nil => simp [insertDesc]
  | cons y ys ih =>
    rcases List.pairwise_cons.mp h with ⟨hy, hys⟩
    by_cases hle : nameLe y.name x.name = true
    · simp only [insertDesc, if_pos hle]
      refine List.pairwise_cons.mpr ⟨?_, h⟩
      intro b hb
      rcases List.mem_cons.mp hb with hb | hb
      · subst hb; exact hle
      · exact nameLe_trans (hy b hb) hle
    · simp only [insertDesc, if_neg hle]
      refine List.pairwise_cons.mpr ⟨?_, ih hys⟩
      intro b hb
      have hperm := insertDesc_perm x ys
      have hb' : b ∈ x :: ys := hperm.mem_iff.mp hb
      rcases List.mem_cons.mp hb' with hb' | hb'
      · subst hb'
        rcases nameLe_total b.name y.name with hh | hh
        · exact hh
        · exact absurd hh hle
      · exact hy b hb'

theorem sortDesc_pairwise (l : List FsNode) :
    (sortDesc l).Pairwise (fun a b => nameLe b.name a.name = true) := by
  induction l with
  | nil => simp [sortDesc]
  | cons x xs ih => exact insertDesc_pairwise x (sortDesc xs) ih

/-- `FileIterator::is_glob_included` with the iterator's `include_glob`
field passed explicitly: with no matcher every name is included. -/
def is_glob_included (ig : Option (String → Bool)) (file_name : String) : Bool :=
  match ig with
  | some g => g file_name
  | none => true

/-- `FileIterator::is_included` with the iterator's `show_hidden` and
`include_glob` fields passed explicitly: hidden names are dropped unless
`show_hidden`; directories are always kept; other entries must match the
include glob.  The `exclude_glob` of the configuration is nowhere
consulted, exactly as in the source. -/
def is_included (sh : Bool) (ig : Option (String → Bool))
    (name : String) (is_dir : Bool) : Bool :=
  if !sh && startsWithDot name then false
  else if is_dir then true
  else is_glob_included ig name

/-- `entries.first_mut()` receiving `is_last = true` in `push_dir` (the
first entry of the name-descending list is the last sibling shown). -/
def markFirstLast : List FileItem → List FileItem
  | [] => []
  | x :: xs => { x with is_last := true } :: xs

/-- The child items `push_dir` builds for a directory item: on a read
failure nothing is pushed; otherwise the children are sorted by descending
name, turned into `FileItem`s one level deeper with `is_last = false`,
filtered by `is_included`, and the first (descending) one is marked as the
last sibling. -/
def pushChildItems (sh : Bool) (ig : Option (String → Bool))
    (item : FileItem) : List FileItem :=
  if item.node.read_dir_ok then
    markFirstLast
      (((sortDesc item.node.children).map
          (fun c => FileItem.new c (item.level + 1) false)).filter
        (fun i => is_included sh ig i.file_name i.is_dir))
  else []

/-- `file_iterator.rs` `FileIterator`.  The `VecDeque` is represented with
its *back* at the head of the list: `pop_back` is `head`, and
`push_back` is `cons` (the code only ever pops from the back, so the queue
is used as a stack). -/
structure FileIterator where
  queue : List FileItem
  show_hidden : Bool
  max_level : Nat
  include_glob : Option (String → Bool)

/-- `FileIterator::new`: a queue holding the root item at level 0 with
`is_last = true`, plus the copied configuration fields (note that
`config.exclude_glob` is not copied — the iterator has no such field). -/
def FileIterator.new (n : FsNode) (config : Config) : FileIterator :=
  { queue := [FileItem.new n 0 true], show_hidden := config.show_all,
    max_level := config.max_level, include_glob := config.include_glob }

/-- `FileIterator::push_dir`: append the child items to the back of the
queue in descending-name order (with the back-at-head representation,
iterated `push_back` conses each entry, i.e. prepends the reversal). -/
def push_dir (it : FileIterator) (item : FileItem) : FileIterator :=
  { it with
    queue := (pushChildItems it.show_hidden it.include_glob item).foldl
      (fun q e => e :: q) it.queue }

/-- `<FileIterator as Iterator>::next`: pop the back of the queue; if the
item is a directory below the depth limit, expand it with `push_dir`;
return the item. -/
def fileIterNext (it : FileIterator) : Option (FileItem × FileIterator) :=
  match it.queue with
  | [] => none
  | item :: rest =>
    let it' := { it with queue := rest }
    if item.is_dir && decide (item.level < it.max_level) then
      some (item, push_dir it' item)
    else
      some (item, it')

/-- Termination measure of the traversal: total snapshot size of the
queued items. -/
def iterMeasure (q : List FileItem) : Nat :=
  FsNode.sizeList (q.map FileItem.node)

/-- Driving `FileIterator` to exhaustion, with fuel. -/
def runFIAux : Nat → FileIterator → List FileItem
  | 0, _ => []
  | fuel + 1, it =>
    match fileIterNext it with
    | none => []
    | some (a, it') => a :: runFIAux fuel it'

/-- The full output sequence of a `FileIterator` (collecting its `next`
calls until `None`; `iterMeasure` fuel is enough, see `runFIAux_spec`). -/
def runFileIterator (it : FileIterator) : List FileItem :=
  runFIAux (iterMeasure it.queue) it

/-- The children of `item` in the order in which the traversal emits them:
the reverse of the pushed (descending) list, i.e. ascending name order
with the last one marked `is_last`. -/
def ascChildren (sh : Bool) (ig : Option (String → Bool))
    (item : FileItem) : List FileItem :=
  (pushChildItems sh ig item).reverse

theorem markFirstLast_map_node (l : List FileItem) :
    (markFirstLast l).map FileItem.node = l.map FileItem.node := by
  cases l <;> simp [markFirstLast]

theorem pushChildItems_measure (sh : Bool) (ig : Option (String → Bool))
    (item : FileItem) :
    iterMeasure (pushChildItems sh ig item) + 1 ≤ FsNode.size item.node := by
  unfold pushChildItems
  by_cases hok : item.node.read_dir_ok
  · simp only [if_pos hok, iterMeasure, markFirstLast_map_node]
    have hsub : List.Sublist
        ((((sortDesc item.node.children).map
            (fun c => FileItem.new c (item.level + 1) false)).filter
          (fun i => is_included sh ig i.file_name i.is_dir)).map FileItem.node)
        ((((sortDesc item.node.children).map
            (fun c => FileItem.new c (item.level + 1) false))).map FileItem.node) :=
      List.Sublist.map _ (List.filter_sublist _)
    have h1 := FsNode.sizeList_sublist hsub
    have h2 : (((sortDesc item.node.children).map
        (fun c => FileItem.new c (item.level + 1) false))).map FileItem.node
        = sortDesc item.node.children := by
      rw [List.map_map]
      have hfun : (FileItem.node ∘ fun c => FileItem.new c (item.level + 1) false)
          = id := by
        funext c; rfl
      rw [hfun, List.map_id]
    rw [h2] at h1
    have h3 := FsNode.sizeList_perm (sortDesc_perm item.node.children)
    have h4 := FsNode.size_eq_children item.node
    omega
  · simp only [if_neg hok, iterMeasure, List.map_nil]
    have := FsNode.size_pos item.node
    simp only [FsNode.sizeList]
    omega

theorem ascChildren_measure (sh : Bool) (ig : Option (String → Bool))
    (item : FileItem) :
    iterMeasure (ascChildren sh ig item) + 1 ≤ FsNode.size item.node := by
  have hperm : List.Perm ((ascChildren sh ig item).map FileItem.node)
      ((pushChildItems sh ig item).map FileItem.node) := by
    simp [ascChildren]
  have := FsNode.sizeList_perm hperm
  have := pushChildItems_measure sh ig item
  simp only [iterMeasure] at *
  omega

theorem iterMeasure_cons (i : FileItem) (q : List FileItem) :
    iterMeasure (i :: q) = FsNode.size i.node + iterMeasure q := by
  simp [iterMeasure, FsNode.sizeList]

theorem iterMeasure_append (q₁ q₂ : List FileItem) :
    iterMeasure (q₁ ++ q₂) = iterMeasure q₁ + iterMeasure q₂ := by
  simp [iterMeasure, FsNode.sizeList_append]

theorem ascChildren_lt (sh : Bool) (ig : Option (String → Bool))
    (x : FileItem) (xs : List FileItem) :
    iterMeasure (ascChildren sh ig x) < iterMeasure (x :: xs) := by
  have h1 := ascChildren_measure sh ig x
  have h2 := iterMeasure_cons x xs
  omega

theorem iterMeasure_tail_lt (x : FileItem) (xs : List FileItem) :
    iterMeasure xs < iterMeasure (x :: xs) := by
  have h2 := iterMeasure_cons x xs
  have h3 := FsNode.size_pos x.node
  omega

/-- Specification-side recursive pre-order emission: emit the items of the
pending list in order; a directory item below the depth limit contributes
its whole subtree (children in ascending name order) right after itself. -/
def emitItems (sh : Bool) (ml : Nat) (ig : Option (String → Bool)) :
    List FileItem → List FileItem
  | [] => []
  | item :: rest =>
    item ::
      ((if item.is_dir && decide (item.level < ml) then
          emitItems sh ml ig (ascChildren sh ig item)
        else []) ++ emitItems sh ml ig rest)
termination_by l => iterMeasure l
decreasing_by
  all_goals first
  | exact ascChildren_lt _ _ _ _
  | exact iterMeasure_tail_lt _ _

/-- The subtree emitted for a single pending item. -/
def emitItem (sh : Bool) (ml : Nat) (ig : Option (String → Bool))
    (item : FileItem) : List FileItem :=
  emitItems sh ml ig [item]

theorem emitItems_nil (sh : Bool) (ml : Nat) (ig : Option (String → Bool)) :
    emitItems sh ml ig [] = [] := by
  rw [emitItems]

theorem emitItems_cons (sh : Bool) (ml : Nat) (ig : Option (String → Bool))
    (item : FileItem) (rest : List FileItem) :
    emitItems sh ml ig (item :: rest) =
      item ::
        ((if item.is_dir && decide (item.level < ml) then
            emitItems sh ml ig (ascChildren sh ig item)
          else []) ++ emitItems sh ml ig rest) := by
  rw [emitItems]

theorem emitItems_append (sh : Bool) (ml : Nat) (ig : Option (String → Bool))
    (l₁ l₂ : List FileItem) :
    emitItems sh ml ig (l₁ ++ l₂) =
      emitItems sh ml ig l₁ ++ emitItems sh ml ig l₂ := by
  induction l₁ with
  | nil => simp [emitItems_nil]
  | cons x xs ih =>
    rw [List.cons_append, emitItems_cons, emitItems_cons, ih]
    simp [List.append_assoc]

theorem foldl_cons_rev (l acc : List FileItem) :
    l.foldl (fun q e => e :: q) acc = l.reverse ++ acc := by
  induction l generalizing acc with
  | nil => simp
  | cons x xs ih => simp [List.foldl_cons, ih]

theorem push_dir_queue (it : FileIterator) (item : FileItem) :
    (push_dir it item).queue =
      ascChildren it.show_hidden it.include_glob item ++ it.queue := by
  simp [push_dir, ascChildren, foldl_cons_rev]

theorem iterMeasure_zero_nil {q : List FileItem} (h : iterMeasure q = 0) :
    q = [] := by
  cases q with
  | nil => rfl
  | cons x xs =>
    exfalso
    have h1 := iterMeasure_cons x xs
    have h2 := FsNode.size_pos x.node
    omega

/-- The Walker's run equals the recursive pre-order specification: driving
`FileIterator::next` from any queue to exhaustion yields exactly the
pre-order emission of the queued items. -/
theorem runFIAux_spec (fuel : Nat) :
    ∀ (it : FileIterator), iterMeasure it.queue ≤ fuel →
      runFIAux fuel it = emitItems it.show_hidden it.max_level it.include_glob it.queue := by
  induction fuel with
  | zero =>
    intro it h
    have hq : it.queue = [] := iterMeasure_zero_nil (Nat.le_zero.mp h)
    rw [hq, emitItems_nil]
    rfl
  | succ fuel ih =>
    intro it h
    obtain ⟨q, sh, ml, ig⟩ := it
    simp only at h
    cases q with
    | nil => simp [runFIAux, fileIterNext, emitItems_nil]
    | cons item rest =>
      show runFIAux (fuel + 1) ⟨item :: rest, sh, ml, ig⟩ = emitItems sh ml ig (item :: rest)
      rw [emitItems_cons]
      by_cases hc : (item.is_dir && decide (item.level < ml)) = true
      · have hnext : fileIterNext ⟨item :: rest, sh, ml, ig⟩ =
            some (item, ⟨ascChildren sh ig item ++ rest, sh, ml, ig⟩) := by
          simp only [fileIterNext, hc, if_pos]
          simp only [push_dir, ascChildren, foldl_cons_rev]
        rw [runFIAux, hnext]
        have hmeas : iterMeasure (ascChildren sh ig item ++ rest) ≤ fuel := by
          have h1 := iterMeasure_append (ascChildren sh ig item) rest
          have h2 := ascChildren_measure sh ig item
          have h3 := iterMeasure_cons item rest
          omega
        have hrec := ih ⟨ascChildren sh ig item ++ rest, sh, ml, ig⟩ hmeas
        simp only at hrec
        show item :: runFIAux fuel ⟨ascChildren sh ig item ++ rest, sh, ml, ig⟩ =
          item :: ((if (item.is_dir && decide (item.level < ml)) = true then
            emitItems sh ml ig (ascChildren sh ig item) else []) ++ emitItems sh ml ig rest)
        rw [hrec, emitItems_append, if_pos hc]
      · have hnext : fileIterNext ⟨item :: rest, sh, ml, ig⟩ =
            some (item, ⟨rest, sh, ml, ig⟩) := by
          simp [fileIterNext, hc]
        rw [runFIAux, hnext]
        have hmeas : iterMeasure rest ≤ fuel := by
          have h2 := FsNode.size_pos item.node
          have h3 := iterMeasure_cons item rest
          omega
        have hrec := ih ⟨rest, sh, ml, ig⟩ hmeas
        simp only at hrec
        show item :: runFIAux fuel ⟨rest, sh, ml, ig⟩ =
          item :: ((if (item.is_dir && decide (item.level < ml)) = true then
            emitItems sh ml ig (ascChildren sh ig item) else []) ++ emitItems sh ml ig rest)
        rw [hrec, if_neg hc]
        simp

/-- The full Walker output for a root and a configuration is the pre-order
emission of the root item. -/
theorem runFileIterator_eq (root : FsNode) (cfg : Config) :
    runFileIterator (FileIterator.new root cfg) =
      emitItem cfg.show_all cfg.max_level cfg.include_glob
        (FileItem.new root 0 true) := by
  have h := runFIAux_spec (iterMeasure (FileIterator.new root cfg).queue)
    (FileIterator.new root cfg) (Nat.le_refl _)
  rw [runFileIterator, h]
  rfl

/-- `filter.rs` `FilteredIterator`: the wrapped iterator's remaining
output is `input` (the underlying `FileIterator` is consumed linearly, so
its future output is a list); `cache` is the `VecDeque` of pending
directories with its *front* at the head of the list; `next_item` is the
one-slot deferred holder; `skip` disables the filter. -/
structure FilterState where
  cache : List FileItem
  next_item : Option FileItem
  input : List FileItem
  skip : Bool

/-- `FilteredIterator::remove_empty_directories_from_cache`: pop from the
back of the cache while the popped entry's level is `≥` the incoming
item's level, reinstating the first entry with a strictly smaller level;
equivalently, drop the maximal suffix whose entries all have level `≥ lvl`.
The recursion below computes exactly that suffix removal (the tail is
cleared first; if it is cleared completely the head itself is tested). -/
def removeEmptyDirs : List FileItem → Nat → List FileItem
  | [], _ => []
  | a :: rest, lvl =>
    match removeEmptyDirs rest lvl with
    | [] => if a.level < lvl then [a] else []
    | b :: r => a :: b :: r

/-- The `while let Some(item) = self.current.next()` loop in
`<FilteredIterator as Iterator>::next`: consume input items, caching
directories; at the first non-directory, emit the front of the cache and
defer the file (or emit the file when the cache is empty); when the input
runs out return `None`, keeping the accumulated cache in the state. -/
def filterLoopSt (c : List FileItem) :
    List FileItem → Option FileItem × FilterState
  | [] => (none, ⟨c, none, [], false⟩)
  | x :: rest =>
    let c' := removeEmptyDirs c x.level
    if x.is_dir then filterLoopSt (c' ++ [x]) rest
    else
      match c' with
      | [] => (some x, ⟨[], none, rest, false⟩)
      | f :: cs => (some f, ⟨cs, some x, rest, false⟩)

/-- `<FilteredIterator as Iterator>::next`: in skip mode pass the
underlying iterator through; otherwise first drain the cache front, then
the deferred item, then run the consume loop. -/
def filterNext (s : FilterState) : Option FileItem × FilterState :=
  if s.skip then
    match s.input with
    | [] => (none, s)
    | x :: xs => (some x, { s with input := xs })
  else
    match s.cache with
    | f :: cs => (some f, { s with cache := cs })
    | [] =>
      match s.next_item with
      | some x => (some x, { s with next_item := none })
      | none => filterLoopSt [] s.input

/-- Termination measure of the filter: each productive `next` call strictly
decreases it. -/
def filterMeasure (s : FilterState) : Nat :=
  2 * s.input.length + s.cache.length +
    (match s.next_item with | some _ => 1 | none => 0)

/-- Driving `FilteredIterator` to exhaustion, with fuel. -/
def filterRunAux : Nat → FilterState → List FileItem
  | 0, _ => []
  | fuel + 1, s =>
    match filterNext s with
    | (none, _) => []
    | (some a, s') => a :: filterRunAux fuel s'

/-- The full output sequence of a `FilteredIterator` (collecting its `next`
calls until the first `None`; `filterMeasure` fuel suffices). -/
def filterRun (s : FilterState) : List FileItem :=
  filterRunAux (filterMeasure s) s

/-- The states of a `FilteredIterator` observable between `next` calls:
the start state and the state after each call, up to and including the
state left behind by the call that returns `None`. -/
def runStatesAux : Nat → FilterState → List FilterState
  | 0, s => [s]
  | fuel + 1, s =>
    s ::
      (match filterNext s with
       | (none, s') => [s']
       | (some _, s') => runStatesAux fuel s')

/-- All states of a filter run. -/
def runStates (s : FilterState) : List FilterState :=
  runStatesAux (filterMeasure s) s

/-- A fresh `FilteredIterator` in active (elision) mode over a given
underlying output sequence. -/
def activeInit (xs : List FileItem) : FilterState :=
  ⟨[], none, xs, false⟩

/-- Streaming elision, flattened to one pass over the input (the cache is
the loop's cache; a file flushes the whole surviving cache before itself,
which is exactly what the drain calls of `filterNext` do). -/
def elideRun (c : List FileItem) : List FileItem → List FileItem
  | [] => []
  | x :: rest =>
    let c' := removeEmptyDirs c x.level
    if x.is_dir then elideRun (c' ++ [x]) rest
    else c' ++ x :: elideRun [] rest

/-- Specification side (from the spec, §4.2/§8): a level `lvl` is
*justified* by a following input sequence when some later non-directory
item arrives while every item up to and including it lies strictly deeper
than `lvl` — i.e. the pre-order subtree opened at `lvl` still encloses
that file. -/
def justifiedFrom : List FileItem → Nat → Bool
  | [], _ => false
  | x :: rest, lvl =>
    if lvl < x.level then (!x.is_dir || justifiedFrom rest lvl) else false

/-- Specification side (from the spec, §4.2/§8): the emitted subsequence —
every non-directory item, and every directory item whose subtree contains
a later emitted file. -/
def elisionSpecList : List FileItem → List FileItem
  | [] => []
  | x :: rest =>
    (if x.is_dir then
      (if justifiedFrom rest x.level then [x] else [])
     else [x]) ++ elisionSpecList rest

theorem removeEmptyDirs_sublist (c : List FileItem) (lvl : Nat) :
    List.Sublist (removeEmptyDirs c lvl) c := by
  induction c with
  | nil => simp [removeEmptyDirs]
  | cons a rest ih =>
    simp only [removeEmptyDirs]
    cases hr : removeEmptyDirs rest lvl with
    | nil =>
      by_cases hl : a.level < lvl
      · simp only [if_pos hl]
        exact List.Sublist.cons₂ a (by simp)
      · simp only [if_neg hl]
        exact List.sublist_cons_of_sublist a (by simp)
    | cons b r =>
      rw [hr] at ih
      exact List.Sublist.cons₂ a ih

theorem removeEmptyDirs_length (c : List FileItem) (lvl : Nat) :
    (removeEmptyDirs c lvl).length ≤ c.length :=
  List.Sublist.length_le (removeEmptyDirs_sublist c lvl)

/-- On a cache whose levels strictly increase from front to back (the
run-time invariant), the back-popping removal behaves as a pointwise
filter keeping the strictly shallower entries. -/
theorem removeEmptyDirs_eq_filter (lvl : Nat) :
    ∀ (c : List FileItem),
      c.Pairwise (fun a b => a.level < b.level) →
      removeEmptyDirs c lvl = c.filter (fun d => decide (d.level < lvl)) := by
  intro c hc
  induction c with
  | nil => simp [removeEmptyDirs]
  | cons a rest ih =>
    rcases List.pairwise_cons.mp hc with ⟨ha, hrest⟩
    have ihr := ih hrest
    simp only [removeEmptyDirs, ihr]
    cases hr : rest.filter (fun d => decide (d.level < lvl)) with
    | nil =>
      by_cases hl : a.level < lvl
      · simp [List.filter_cons, hl, hr]
      · simp [List.filter_cons, hl, hr]
    | cons b r =>
      have hb : b ∈ rest.filter (fun d => decide (d.level < lvl)) := by
        rw [hr]; exact List.mem_cons_self b r
      rcases List.mem_filter.mp hb with ⟨hbmem, hblt⟩
      have hba : a.level < b.level := ha b hbmem
      have hal : a.level < lvl := by
        have : b.level < lvl := of_decide_eq_true hblt
        omega
      simp [List.filter_cons, hal, hr]

theorem justifiedFrom_cons_dir (x : FileItem) (rest : List FileItem)
    (lvl : Nat) (hx : x.is_dir = true) :
    justifiedFrom (x :: rest) lvl =
      (decide (lvl < x.level) && justifiedFrom rest lvl) := by
  by_cases hl : lvl < x.level
  · simp [justifiedFrom, hl, hx]
  · simp [justifiedFrom, hl]

theorem justifiedFrom_cons_file (x : FileItem) (rest : List FileItem)
    (lvl : Nat) (hx : x.is_dir = false) :
    justifiedFrom (x :: rest) lvl = decide (lvl < x.level) := by
  by_cases hl : lvl < x.level
  · simp [justifiedFrom, hl, hx]
  · simp [justifiedFrom, hl]

/-- The one-pass elision (`elideRun`) computes exactly the specification:
the surviving, eventually-justified cache entries in order, followed by
the spec-emitted subsequence of the input. -/
theorem elideRun_spec :
    ∀ (inp : List FileItem) (c : List FileItem),
      c.Pairwise (fun a b => a.level < b.level) →
      elideRun c inp =
        c.filter (fun d => justifiedFrom inp d.level) ++ elisionSpecList inp := by
  intro inp
  induction inp with
  | nil =>
    intro c hc
    simp [elideRun, elisionSpecList, justifiedFrom]
  | cons x rest ih =>
    intro c hc
    have hre := removeEmptyDirs_eq_filter x.level c hc
    by_cases hx : x.is_dir = true
    · -- the incoming item is a directory: it joins the cache
      have hc' : (removeEmptyDirs c x.level ++ [x]).Pairwise
          (fun a b => a.level < b.level) := by
        rw [hre]
        refine List.pairwise_append.mpr ⟨List.Pairwise.filter _ hc, by simp, ?_⟩
        intro a hamem b hbmem
        rcases List.mem_filter.mp hamem with ⟨_, halt⟩
        rcases List.mem_singleton.mp hbmem with rfl
        exact of_decide_eq_true halt
      have hrec := ih (removeEmptyDirs c x.level ++ [x]) hc'
      simp only [elideRun, hx, if_pos, elisionSpecList]
      rw [hrec, hre]
      rw [List.filter_append, List.filter_filter]
      have hfc : ∀ d : FileItem,
          (justifiedFrom rest d.level && decide (d.level < x.level))
            = justifiedFrom (x :: rest) d.level := by
        intro d
        rw [justifiedFrom_cons_dir x rest d.level hx, Bool.and_comm]
      have hflt : c.filter
            (fun d => justifiedFrom rest d.level && decide (d.level < x.level))
          = c.filter (fun d => justifiedFrom (x :: rest) d.level) := by
        apply List.filter_congr
        intro d _
        exact hfc d
      rw [hflt]
      have hsing : List.filter (fun d => justifiedFrom rest d.level) [x]
          = if justifiedFrom rest x.level then [x] else [] := by
        by_cases hj : justifiedFrom rest x.level = true
        · simp [List.filter_cons, hj]
        · simp [List.filter_cons, hj]
      rw [hsing]
      simp [hx, List.append_assoc]
    · -- the incoming item is a file: it flushes the surviving cache
      have hx' : x.is_dir = false := by
        cases h : x.is_dir
        · rfl
        · exact absurd h hx
      have hrec := ih [] (by simp)
      simp only [elideRun, hx', Bool.false_eq_true, if_neg, elisionSpecList]
      rw [hrec, hre]
      simp only [List.filter_nil, List.nil_append]
      have hflt : c.filter (fun d => decide (d.level < x.level))
          = c.filter (fun d => justifiedFrom (x :: rest) d.level) := by
        apply List.filter_congr
        intro d _
        rw [justifiedFrom_cons_file x rest d.level hx']
      rw [hflt]
      simp [hx', List.append_assoc]

theorem filterLoopSt_none (inp : List FileItem) :
    ∀ (c : List FileItem) (s' : FilterState),
      filterLoopSt c inp = (none, s') → elideRun c inp = [] := by
  induction inp with
  | nil => intro c s' _; rfl
  | cons x rest ih =>
    intro c s' h
    simp only [filterLoopSt] at h
    by_cases hx : x.is_dir = true
    · rw [if_pos hx] at h
      simp only [elideRun, hx, if_pos]
      exact ih _ _ h
    · rw [if_neg hx] at h
      cases hc : removeEmptyDirs c x.level with
      | nil => rw [hc] at h; exact absurd h (by simp)
      | cons f cs => rw [hc] at h; exact absurd h (by simp)

theorem filterLoopSt_some (inp : List FileItem) :
    ∀ (c : List FileItem) (a : FileItem) (s' : FilterState),
      filterLoopSt c inp = (some a, s') →
      s'.skip = false ∧
        a :: (s'.cache ++ s'.next_item.toList ++ elideRun [] s'.input)
          = elideRun c inp := by
  induction inp with
  | nil =>
    intro c a s' h
    simp only [filterLoopSt] at h
    exact absurd h (by simp)
  | cons x rest ih =>
    intro c a s' h
    simp only [filterLoopSt] at h
    by_cases hx : x.is_dir = true
    · rw [if_pos hx] at h
      rcases ih _ _ _ h with ⟨hskip, hout⟩
      refine ⟨hskip, ?_⟩
      simp only [elideRun, hx, if_pos]
      exact hout
    · rw [if_neg hx] at h
      have hx' : x.is_dir = false := by
        cases hh : x.is_dir
        · rfl
        · exact absurd hh hx
      cases hc : removeEmptyDirs c x.level with
      | nil =>
        rw [hc] at h
        simp only [Prod.mk.injEq, Option.some.injEq] at h
        rcases h with ⟨rfl, rfl⟩
        refine ⟨rfl, ?_⟩
        simp only [elideRun, hx', Bool.false_eq_true, if_neg, hc]
        simp
      | cons f cs =>
        rw [hc] at h
        simp only [Prod.mk.injEq, Option.some.injEq] at h
        rcases h with ⟨rfl, rfl⟩
        refine ⟨rfl, ?_⟩
        simp only [elideRun, hx', Bool.false_eq_true, if_neg, hc]
        simp

theorem filterLoopSt_measure (inp : List FileItem) :
    ∀ (c : List FileItem) (a : FileItem) (s' : FilterState),
      filterLoopSt c inp = (some a, s') →
      filterMeasure s' + 1 ≤ 2 * inp.length + c.length := by
  induction inp with
  | nil =>
    intro c a s' h
    simp only [filterLoopSt] at h
    exact absurd h (by simp)
  | cons x rest ih =>
    intro c a s' h
    simp only [filterLoopSt] at h
    have hlen := removeEmptyDirs_length c x.level
    by_cases hx : x.is_dir = true
    · rw [if_pos hx] at h
      have := ih _ _ _ h
      simp only [List.length_append, List.length_cons, List.length_nil,
        List.length] at this ⊢
      omega
    · rw [if_neg hx] at h
      cases hc : removeEmptyDirs c x.level with
      | nil =>
        rw [hc] at h
        simp only [Prod.mk.injEq, Option.some.injEq] at h
        rcases h with ⟨rfl, rfl⟩
        simp only [filterMeasure, List.length_cons, List.length_nil]
        omega
      | cons f cs =>
        rw [hc] at h
        simp only [Prod.mk.injEq, Option.some.injEq] at h
        rcases h with ⟨rfl, rfl⟩
        have : cs.length + 1 = (removeEmptyDirs c x.level).length := by
          rw [hc]; simp
        simp only [filterMeasure, List.length_cons]
        omega

theorem filterMeasure_zero {s : FilterState} (h : filterMeasure s = 0) :
    s.cache = [] ∧ s.next_item = none ∧ s.input = [] := by
  obtain ⟨c, ni, inp, sk⟩ := s
  cases ni with
  | some x =>
    exfalso
    simp only [filterMeasure, List.length_cons] at h
    omega
  | none =>
    cases c with
    | cons a l =>
      exfalso
      simp only [filterMeasure, List.length_cons] at h
      omega
    | nil =>
      cases inp with
      | cons a l =>
        exfalso
        simp only [filterMeasure, List.length_cons] at h
        omega
      | nil => exact ⟨rfl, rfl, rfl⟩

/-- Active-mode flattening: the remaining output of a `FilteredIterator`
from any active state is the cached entries, then the deferred entry, then
the one-pass elision of the remaining input. -/
theorem filterRunAux_flat (fuel : Nat) :
    ∀ (s : FilterState), s.skip = false → filterMeasure s ≤ fuel →
      filterRunAux fuel s =
        s.cache ++ s.next_item.toList ++ elideRun [] s.input := by
  induction fuel with
  | zero =>
    intro s hskip h
    rcases filterMeasure_zero (Nat.le_zero.mp h) with ⟨hc, hn, hi⟩
    rw [hc, hn, hi]
    rfl
  | succ fuel ih =>
    intro s hskip h
    obtain ⟨c, ni, inp, sk⟩ := s
    simp only at hskip
    subst hskip
    cases c with
    | cons f cs =>
      have hnext : filterNext ⟨f :: cs, ni, inp, false⟩ =
          (some f, ⟨cs, ni, inp, false⟩) := by
        simp [filterNext]
      rw [filterRunAux, hnext]
      have hm : filterMeasure ⟨cs, ni, inp, false⟩ ≤ fuel := by
        simp only [filterMeasure, List.length_cons] at h ⊢
        omega
      show f :: filterRunAux fuel ⟨cs, ni, inp, false⟩ = _
      rw [ih ⟨cs, ni, inp, false⟩ rfl hm]
      simp
    | nil =>
      cases ni with
      | some x =>
        have hnext : filterNext ⟨[], some x, inp, false⟩ =
            (some x, ⟨[], none, inp, false⟩) := by
          simp [filterNext]
        rw [filterRunAux, hnext]
        have hm : filterMeasure ⟨[], none, inp, false⟩ ≤ fuel := by
          simp only [filterMeasure, List.length_nil] at h ⊢
          omega
        show x :: filterRunAux fuel ⟨[], none, inp, false⟩ = _
        rw [ih ⟨[], none, inp, false⟩ rfl hm]
        simp
      | none =>
        have hnext : filterNext ⟨[], none, inp, false⟩ = filterLoopSt [] inp := by
          simp [filterNext]
        cases hloop : filterLoopSt [] inp with
        | mk o s' =>
          cases o with
          | none =>
            rw [filterRunAux, hnext, hloop]
            have hel := filterLoopSt_none inp [] s' hloop
            show ([] : List FileItem) = _
            simp [hel]
          | some a =>
            rw [filterRunAux, hnext, hloop]
            rcases filterLoopSt_some inp [] a s' hloop with ⟨hskip', hout⟩
            have hm : filterMeasure s' ≤ fuel := by
              have := filterLoopSt_measure inp [] a s' hloop
              simp only [List.length_nil] at this
              simp only [filterMeasure, List.length_nil] at h
              omega
            show a :: filterRunAux fuel s' = _
            rw [ih s' hskip' hm]
            simp only [List.nil_append, Option.toList_none] at hout ⊢
            rw [hout]

/-- Skip-mode flattening: with the filter disabled, the remaining output
is exactly the remaining input. -/
theorem filterRunAux_skip (fuel : Nat) :
    ∀ (s : FilterState), s.skip = true → 2 * s.input.length ≤ fuel →
      filterRunAux fuel s = s.input := by
  induction fuel with
  | zero =>
    intro s hskip h
    cases hi : s.input with
    | nil => simp [filterRunAux]
    | cons a l => rw [hi] at h; simp at h
  | succ fuel ih =>
    intro s hskip h
    obtain ⟨c, ni, inp, sk⟩ := s
    simp only at hskip
    subst hskip
    cases inp with
    | nil =>
      have hnext : filterNext ⟨c, ni, [], true⟩ = (none, ⟨c, ni, [], true⟩) := by
        simp [filterNext]
      rw [filterRunAux, hnext]
    | cons x xs =>
      have hnext : filterNext ⟨c, ni, x :: xs, true⟩ =
          (some x, ⟨c, ni, xs, true⟩) := by
        simp [filterNext]
      rw [filterRunAux, hnext]
      have hm : 2 * xs.length ≤ fuel := by
        simp only [List.length_cons] at h
        omega
      show x :: filterRunAux fuel ⟨c, ni, xs, true⟩ = _
      rw [ih ⟨c, ni, xs, true⟩ rfl hm]

/-- Active-mode output of the filter equals the specification-side emitted
subsequence. -/
theorem filterRun_active (xs : List FileItem) :
    filterRun (activeInit xs) = elisionSpecList xs := by
  have h := filterRunAux_flat (filterMeasure (activeInit xs)) (activeInit xs)
    rfl (Nat.le_refl _)
  rw [filterRun, h]
  have h2 := elideRun_spec xs [] (by simp)
  simp only [activeInit, List.nil_append, Option.toList_none] at *
  rw [h2]
  simp

/-- Skip-mode output of the filter from any state is the remaining input. -/
theorem filterRun_skip (c : List FileItem) (ni : Option FileItem)
    (xs : List FileItem) :
    filterRun ⟨c, ni, xs, true⟩ = xs := by
  have h := filterRunAux_skip (filterMeasure ⟨c, ni, xs, true⟩) ⟨c, ni, xs, true⟩
    rfl (by simp [filterMeasure]; omega)
  rw [filterRun, h]

/-- Non-directories pass the elision untouched: the emitted files are the
input's files, in order, each exactly once. -/
theorem elisionSpecList_files (xs : List FileItem) :
    (elisionSpecList xs).filter (fun i => !i.is_dir)
      = xs.filter (fun i => !i.is_dir) := by
  induction xs with
  | nil => simp [elisionSpecList]
  | cons x rest ih =>
    by_cases hx : x.is_dir = true
    · simp only [elisionSpecList, hx, if_pos]
      by_cases hj : justifiedFrom rest x.level = true
      · simp [hj, List.filter_cons, hx, ih]
      · simp only [hj, Bool.false_eq_true, if_neg]
        simp [List.filter_cons, hx, ih]
    · have hx' : x.is_dir = false := by
        cases hh : x.is_dir
        · rfl
        · exact absurd hh hx
      simp [elisionSpecList, hx', List.filter_cons, ih]

/-- The maximal level of any directory item of a list (`0` when there is
none): "the maximum directory depth seen" over that part of the stream. -/
def maxDirLevel (l : List FileItem) : Nat :=
  ((l.filter (fun i => i.is_dir)).map (fun i => i.level)).foldr max 0

/-- Run-time invariant of the active filter: the cache levels strictly
increase from front to back, and every cached entry is a directory item
that already appeared in the consumed part of the input. -/
def FilterInv (xs : List FileItem) (s : FilterState) : Prop :=
  s.skip = false ∧
  s.cache.Pairwise (fun a b => a.level < b.level) ∧
  ∃ ys, ys ++ s.input = xs ∧ ∀ d ∈ s.cache, d ∈ ys ∧ d.is_dir = true

theorem removeEmptyDirs_mem {c : List FileItem} {lvl : Nat} {d : FileItem}
    (h : d ∈ removeEmptyDirs c lvl) : d ∈ c :=
  (removeEmptyDirs_sublist c lvl).mem h

theorem removeEmptyDirs_level {c : List FileItem} {lvl : Nat} {d : FileItem}
    (hc : c.Pairwise (fun a b => a.level < b.level))
    (h : d ∈ removeEmptyDirs c lvl) : d.level < lvl := by
  rw [removeEmptyDirs_eq_filter lvl c hc] at h
  exact of_decide_eq_true (List.mem_filter.mp h).2

theorem removeEmptyDirs_pairwise {c : List FileItem} {lvl : Nat}
    (hc : c.Pairwise (fun a b => a.level < b.level)) :
    (removeEmptyDirs c lvl).Pairwise (fun a b => a.level < b.level) :=
  List.Pairwise.sublist (removeEmptyDirs_sublist c lvl) hc

theorem filterLoopSt_inv (inp : List FileItem) :
    ∀ (c : List FileItem) (o : Option FileItem) (s' : FilterState)
      (P : FileItem → Prop),
      filterLoopSt c inp = (o, s') →
      c.Pairwise (fun a b => a.level < b.level) →
      (∀ d ∈ c, P d ∧ d.is_dir = true) →
      s'.skip = false ∧
      s'.cache.Pairwise (fun a b => a.level < b.level) ∧
      ∃ zs, zs ++ s'.input = inp ∧
        ∀ d ∈ s'.cache, (P d ∨ d ∈ zs) ∧ d.is_dir = true := by
  induction inp with
  | nil =>
    intro c o s' P h hc hP
    simp only [filterLoopSt, Prod.mk.injEq] at h
    rcases h with ⟨rfl, rfl⟩
    refine ⟨rfl, hc, [], rfl, ?_⟩
    intro d hd
    exact ⟨Or.inl (hP d hd).1, (hP d hd).2⟩
  | cons x rest ih =>
    intro c o s' P h hc hP
    simp only [filterLoopSt] at h
    have hc' : (removeEmptyDirs c x.level).Pairwise (fun a b => a.level < b.level) :=
      removeEmptyDirs_pairwise hc
    have hmem' : ∀ d ∈ removeEmptyDirs c x.level, P d ∧ d.is_dir = true :=
      fun d hd => hP d (removeEmptyDirs_mem hd)
    by_cases hx : x.is_dir = true
    · rw [if_pos hx] at h
      have hcc : (removeEmptyDirs c x.level ++ [x]).Pairwise
          (fun a b => a.level < b.level) := by
        refine List.pairwise_append.mpr ⟨hc', by simp, ?_⟩
        intro a hamem b hbmem
        rcases List.mem_singleton.mp hbmem with rfl
        exact removeEmptyDirs_level hc hamem
      have hPP : ∀ d ∈ removeEmptyDirs c x.level ++ [x],
          (P d ∨ d = x) ∧ d.is_dir = true := by
        intro d hd
        rcases List.mem_append.mp hd with hd | hd
        · exact ⟨Or.inl (hmem' d hd).1, (hmem' d hd).2⟩
        · rcases List.mem_singleton.mp hd with rfl
          exact ⟨Or.inr rfl, hx⟩
      rcases ih _ _ _ (fun d => P d ∨ d = x) h hcc hPP with
        ⟨hskip', hpw', zs, hzs, hall⟩
      refine ⟨hskip', hpw', x :: zs, by simp [hzs], ?_⟩
      intro d hd
      rcases hall d hd with ⟨hPd, hdir⟩
      refine ⟨?_, hdir⟩
      rcases hPd with (hPd | rfl) | hPd
      · exact Or.inl hPd
      · exact Or.inr (List.mem_cons_self _ _)
      · exact Or.inr (List.mem_cons_of_mem _ hPd)
    · rw [if_neg hx] at h
      cases hrem : removeEmptyDirs c x.level with
      | nil =>
        rw [hrem] at h
        simp only [Prod.mk.injEq] at h
        rcases h with ⟨rfl, rfl⟩
        exact ⟨rfl, by simp, [x], by simp, by simp⟩
      | cons f cs =>
        rw [hrem] at h
        simp only [Prod.mk.injEq] at h
        rcases h with ⟨rfl, rfl⟩
        refine ⟨rfl, ?_, [x], by simp, ?_⟩
        · have : (f :: cs).Pairwise (fun a b => a.level < b.level) := by
            rw [← hrem]; exact hc'
          exact (List.pairwise_cons.mp this).2
        · intro d hd
          have hd' : d ∈ removeEmptyDirs c x.level := by
            rw [hrem]; exact List.mem_cons_of_mem f hd
          exact ⟨Or.inl (hmem' d hd').1, (hmem' d hd').2⟩

theorem filterNext_inv {xs : List FileItem} {s s' : FilterState}
    {o : Option FileItem} (hinv : FilterInv xs s)
    (h : filterNext s = (o, s')) : FilterInv xs s' := by
  obtain ⟨c, ni, inp, sk⟩ := s
  rcases hinv with ⟨hskip, hpw, ys, hys, hall⟩
  simp only at hskip
  subst hskip
  cases c with
  | cons f cs =>
    have hnext : filterNext ⟨f :: cs, ni, inp, false⟩ =
        (some f, ⟨cs, ni, inp, false⟩) := by
      simp [filterNext]
    rw [hnext] at h
    have h' : s' = ⟨cs, ni, inp, false⟩ := by
      have := congrArg Prod.snd h
      simpa using this.symm
    subst h'
    exact ⟨rfl, (List.pairwise_cons.mp hpw).2, ys, hys,
      fun d hd => hall d (List.mem_cons_of_mem f hd)⟩
  | nil =>
    cases ni with
    | some x =>
      have hnext : filterNext ⟨[], some x, inp, false⟩ =
          (some x, ⟨[], none, inp, false⟩) := by
        simp [filterNext]
      rw [hnext] at h
      have h' : s' = ⟨[], none, inp, false⟩ := by
        have := congrArg Prod.snd h
        simpa using this.symm
      subst h'
      exact ⟨rfl, by simp, ys, hys, by simp⟩
    | none =>
      simp only [filterNext] at h
      rcases filterLoopSt_inv inp [] o s' (fun d => d ∈ ys) h (by simp)
        (by simp) with ⟨hskip', hpw', zs, hzs, hall'⟩
      refine ⟨hskip', hpw', ys ++ zs, by rw [List.append_assoc, hzs]; exact hys, ?_⟩
      intro d hd
      rcases hall' d hd with ⟨hPd, hdir⟩
      refine ⟨?_, hdir⟩
      rcases hPd with hPd | hPd
      · exact List.mem_append.mpr (Or.inl hPd)
      · exact List.mem_append.mpr (Or.inr hPd)

theorem runStatesAux_inv (fuel : Nat) :
    ∀ (xs : List FileItem) (s : FilterState), FilterInv xs s →
      ∀ t ∈ runStatesAux fuel s, FilterInv xs t := by
  induction fuel with
  | zero =>
    intro xs s hs t ht
    rcases List.mem_singleton.mp ht with rfl
    exact hs
  | succ fuel ih =>
    intro xs s hs t ht
    simp only [runStatesAux] at ht
    rcases List.mem_cons.mp ht with rfl | ht
    · exact hs
    · cases hnext : filterNext s with
      | mk o s' =>
        cases o with
        | none =>
          rw [hnext] at ht
          simp only [List.mem_singleton] at ht
          subst ht
          exact filterNext_inv hs hnext
        | some a =>
          rw [hnext] at ht
          exact ih xs s' (filterNext_inv hs hnext) t ht

theorem pairwise_lt_length_le :
    ∀ (l : List Nat), l.Pairwise (fun a b => a < b) →
      ∀ k, (∀ x ∈ l, k ≤ x) → l = [] ∨ l.length + k ≤ l.foldr max 0 + 1 := by
  intro l
  induction l with
  | nil => intro _ k _; exact Or.inl rfl
  | cons a rest ih =>
    intro hpw k hk
    rcases List.pairwise_cons.mp hpw with ⟨ha, hrest⟩
    have hka : k ≤ a := hk a (List.mem_cons_self a rest)
    right
    cases rest with
    | nil =>
      simp only [List.foldr, List.length_cons, List.length_nil]
      omega
    | cons b r =>
      have hk' : ∀ x ∈ b :: r, k + 1 ≤ x := by
        intro x hx
        have := ha x hx
        omega
      rcases ih hrest (k + 1) hk' with h | h
      · exact absurd h (by simp)
      · simp only [List.length_cons, List.foldr] at h ⊢
        omega

theorem le_foldr_max {x : Nat} : ∀ {l : List Nat}, x ∈ l → x ≤ l.foldr max 0 := by
  intro l
  induction l with
  | nil => intro h; cases h
  | cons a rest ih =>
    intro h
    rcases List.mem_cons.mp h with rfl | h
    · simp only [List.foldr]
      omega
    · have := ih h
      simp only [List.foldr]
      omega

theorem foldr_max_le {m : Nat} : ∀ {l : List Nat}, (∀ x ∈ l, x ≤ m) →
    l.foldr max 0 ≤ m := by
  intro l
  induction l with
  | nil => intro _; simp
  | cons a rest ih =>
    intro h
    have ha := h a (List.mem_cons_self a rest)
    have hr := ih (fun x hx => h x (List.mem_cons_of_mem a hx))
    simp only [List.foldr]
    omega

theorem mem_le_maxDirLevel {d : FileItem} {l : List FileItem}
    (hd : d ∈ l) (hdir : d.is_dir = true) : d.level ≤ maxDirLevel l := by
  apply le_foldr_max
  exact List.mem_map.mpr ⟨d, List.mem_filter.mpr ⟨hd, by simp [hdir]⟩, rfl⟩

theorem take_append_self (ys zs : List FileItem) :
    (ys ++ zs).take ys.length = ys := by
  induction ys with
  | nil => simp
  | cons a ys ih => simp [List.take, ih]

/-- From the invariant: the cache holds at most one entry per directory
level `0, 1, …` already seen, so its size is at most one more than the
maximal directory level of the consumed input prefix. -/
theorem inv_cache_bound {xs : List FileItem} {s : FilterState}
    (hinv : FilterInv xs s) :
    s.cache.length ≤ maxDirLevel (xs.take (xs.length - s.input.length)) + 1 := by
  rcases hinv with ⟨_, hpw, ys, hys, hall⟩
  have hys' : xs.take (xs.length - s.input.length) = ys := by
    have hlen : xs.length = ys.length + s.input.length := by
      rw [← hys]; simp
    have : xs.length - s.input.length = ys.length := by omega
    rw [this, ← hys, take_append_self]
  rw [hys']
  have hpwl : (s.cache.map (fun d => d.level)).Pairwise (fun a b => a < b) :=
    List.pairwise_map.mpr hpw
  rcases pairwise_lt_length_le (s.cache.map (fun d => d.level)) hpwl 0
    (by intro x _; omega) with hnil | hlen
  · have : s.cache = [] := by
      cases hc : s.cache with
      | nil => rfl
      | cons d l => rw [hc] at hnil; simp at hnil
    rw [this]
    simp
  · have hbound : (s.cache.map (fun d => d.level)).foldr max 0 ≤ maxDirLevel ys := by
      apply foldr_max_le
      intro x hx
      rcases List.mem_map.mp hx with ⟨d, hd, rfl⟩
      exact mem_le_maxDirLevel (hall d hd).1 (hall d hd).2
    have : (s.cache.map (fun d => d.level)).length = s.cache.length := by simp
    omega

/-- `symbol.rs` horizontal-line glyph. -/
def HOR : Char := '─'

/-- `symbol.rs` tee (branch) glyph. -/
def CRO : Char := '├'

/-- `symbol.rs` vertical-bar glyph. -/
def VER : Char := '│'

/-- `symbol.rs` corner (terminator) glyph. -/
def END : Char := '└'

/-- `symbol.rs` padding space. -/
def SPACE : Char := ' '

/-- `symbol.rs` `set_line_prefix`, as the character sequence the function
pushes into the (cleared) prefix buffer: for every entry but the last a
continuation column of 4 characters, then for the last entry the branch or
terminator glyph with two horizontal lines and a space. -/
def set_line_prefix_chars (l : List Bool) : List Char :=
  (l.take (l.length - 1)).foldl
    (fun pfx b =>
      (if b then pfx ++ [VER] else pfx ++ [SPACE]) ++ [SPACE, SPACE, SPACE]) []
  ++ (match l.getLast? with
      | none => []
      | some b => (if b then [CRO] else [END]) ++ [HOR, HOR, SPACE])

/-- The prefix string produced by `set_line_prefix` (the buffer is cleared
on entry, so its final contents depend only on the switch list). -/
def set_line_prefix_str (l : List Bool) : String :=
  String.mk (set_line_prefix_chars l)

/-- Specification side (from the spec, §4.3): for every index except the
last, a vertical bar plus 3 spaces when `true`, else 4 spaces; for the
final index the tee (when `true`) or the corner (when `false`) glyph
followed by two horizontal lines and one space; empty input yields the
empty output. -/
def renderPrefixSpecChars (l : List Bool) : List Char :=
  (l.dropLast.map
    (fun b => if b then [VER, SPACE, SPACE, SPACE]
              else [SPACE, SPACE, SPACE, SPACE])).flatten
  ++ (match l.getLast? with
      | none => []
      | some b => [if b then CRO else END, HOR, HOR, SPACE])

/-- `core.rs` `DirTree::cal_symbol_switch`: truncate the switch list to
the entry's level, extend by one `true` when the level is deeper, and set
the last slot to the negation of `is_last`. -/
def cal_symbol_switch (l : List Bool) (level : Nat) (is_last : Bool) :
    List Bool :=
  let l1 := l.take level
  let l2 := if l1.length < level then l1 ++ [true] else l1
  if 0 < l2.length then l2.set (l2.length - 1) (!is_last) else l2

/-- `symbol.rs` `print_path`, reduced to the plain text it writes for the
name: the colorization and the optional bracketed size suffix are effects
on the terminal sink, out of scope of the claims. -/
def print_path (file_name : String) (_m : MetaData) : String :=
  file_name

/-- `core.rs` `DirTree::print_line`: prefix, then either the styled name
(metadata available) or the name followed by the literal error marker. -/
def print_line (e : FileItem) (pfx : String) : String :=
  match e.metadata with
  | .ok m => pfx ++ print_path e.file_name m
  | .error _ => pfx ++ (e.file_name ++ " [Error File]")

/-- `core.rs` `DirSummary`. -/
structure DirSummary where
  num_folders : Nat
  num_files : Nat
deriving Repr, DecidableEq

/-- `DirSummary::init`. -/
def DirSummary.init : DirSummary :=
  { num_folders := 0, num_files := 0 }

/-- The per-entry counter update of `DirTree::print_folders`. -/
def countStep (s : DirSummary) (e : FileItem) : DirSummary :=
  if e.is_dir then { s with num_folders := s.num_folders + 1 }
  else { s with num_files := s.num_files + 1 }

/-- `core.rs` `DirTree::get_iterator`: wrap the `FileIterator` in a
`FilteredIterator` and disable the filter exactly when no include pattern
is set. -/
def get_iterator (cfg : Config) (root : FsNode) : FilterState :=
  { cache := [], next_item := none,
    input := runFileIterator (FileIterator.new root cfg),
    skip := cfg.include_glob.isNone }

/-- The entry sequence the orchestrator iterates over. -/
def runPipeline (cfg : Config) (root : FsNode) : List FileItem :=
  filterRun (get_iterator cfg root)

/-- One iteration of the `for entry in self.get_iterator(path)` loop of
`print_folders`: update the switch list, count, and append the printed
line. -/
def printStep (st : DirSummary × List Bool × List String) (e : FileItem) :
    DirSummary × List Bool × List String :=
  let sw := cal_symbol_switch st.2.1 e.level e.is_last
  (countStep st.1 e, sw, st.2.2 ++ [print_line e (set_line_prefix_str sw)])

/-- `core.rs` `DirTree::print_folders`: iterate the pipeline, then
subtract the root from the folder count with `usize::saturating_sub`
(which coincides with truncated subtraction on `Nat`). -/
def print_folders (cfg : Config) (root : FsNode) : DirSummary × List String :=
  let r := (runPipeline cfg root).foldl printStep (DirSummary.init, [], [])
  ({ r.1 with num_folders := r.1.num_folders - 1 }, r.2.2)

theorem foldl_printStep_counts :
    ∀ (l : List FileItem) (st : DirSummary × List Bool × List String),
      (l.foldl printStep st).1.num_folders
          = st.1.num_folders + l.countP (fun i => i.is_dir) ∧
      (l.foldl printStep st).1.num_files
          = st.1.num_files + l.countP (fun i => !i.is_dir) := by
  intro l
  induction l with
  | nil => intro st; simp
  | cons e l ih =>
    intro st
    rw [List.foldl_cons]
    rcases ih (printStep st e) with ⟨h1, h2⟩
    rw [h1, h2]
    by_cases he : e.is_dir = true
    · simp [printStep, countStep, he, List.countP_cons]
      omega
    · have he' : e.is_dir = false := by
        cases hh : e.is_dir
        · rfl
        · exact absurd hh he
      simp [printStep, countStep, he', List.countP_cons]
      omega

theorem foldl_cols (l : List Bool) :
    ∀ acc : List Char,
      l.foldl (fun pfx b =>
          (if b then pfx ++ [VER] else pfx ++ [SPACE]) ++ [SPACE, SPACE, SPACE]) acc
        = acc ++ (l.map (fun b =>
            if b then [VER, SPACE, SPACE, SPACE]
            else [SPACE, SPACE, SPACE, SPACE])).flatten := by
  induction l with
  | nil => intro acc; simp
  | cons b bs ih =>
    intro acc
    rw [List.foldl_cons, ih]
    cases b <;> simp

/-- The renderer equals its specification, column by column. -/
theorem set_line_prefix_chars_eq_spec (l : List Bool) :
    set_line_prefix_chars l = renderPrefixSpecChars l := by
  unfold set_line_prefix_chars renderPrefixSpecChars
  rw [← List.dropLast_eq_take, foldl_cols]
  cases hl : l.getLast? with
  | none => simp
  | some b => cases b <;> simp

theorem markFirstLast_map_name (l : List FileItem) :
    (markFirstLast l).map (fun i => i.file_name) = l.map (fun i => i.file_name) := by
  cases l <;> simp [markFirstLast]

/-- The pushed (descending) child list is sorted by descending name. -/
theorem pushChildItems_names_pairwise (sh : Bool) (ig : Option (String → Bool))
    (item : FileItem) :
    ((pushChildItems sh ig item).map (fun i => i.file_name)).Pairwise
      (fun a b => nameLe b a = true) := by
  unfold pushChildItems
  by_cases hok : item.node.read_dir_ok
  · simp only [if_pos hok]
    rw [markFirstLast_map_name]
    have hpw := sortDesc_pairwise item.node.children
    have hpw2 : ((sortDesc item.node.children).map (fun c => c.name)).Pairwise
        (fun a b => nameLe b a = true) :=
      List.pairwise_map.mpr hpw
    have h1 : (((sortDesc item.node.children).map
          (fun c => FileItem.new c (item.level + 1) false)).map
        (fun i => i.file_name)) = (sortDesc item.node.children).map (fun c => c.name) := by
      rw [List.map_map]
      rfl
    have hsub : List.Sublist
        ((((sortDesc item.node.children).map
            (fun c => FileItem.new c (item.level + 1) false)).filter
          (fun i => is_included sh ig i.file_name i.is_dir)).map (fun i => i.file_name))
        ((((sortDesc item.node.children).map
            (fun c => FileItem.new c (item.level + 1) false))).map (fun i => i.file_name)) :=
      List.Sublist.map _ (List.filter_sublist _)
    rw [h1] at hsub
    exact List.Pairwise.sublist hsub hpw2
  · simp [if_neg hok]

/-- The ascending child list (the emission order) is sorted by ascending
name. -/
theorem ascChildren_names_pairwise (sh : Bool) (ig : Option (String → Bool))
    (item : FileItem) :
    ((ascChildren sh ig item).map (fun i => i.file_name)).Pairwise
      (fun a b => nameLe a b = true) := by
  rw [ascChildren, List.map_reverse]
  exact List.pairwise_reverse.mpr (pushChildItems_names_pairwise sh ig item)

theorem pushChildItems_is_last (sh : Bool) (ig : Option (String → Bool))
    (item : FileItem) :
    (pushChildItems sh ig item).map (fun i => i.is_last)
      = match pushChildItems sh ig item with
        | [] => []
        | _ :: t => true :: List.replicate t.length false := by
  have hall : ∀ i ∈ ((sortDesc item.node.children).map
        (fun c => FileItem.new c (item.level + 1) false)).filter
      (fun i => is_included sh ig i.file_name i.is_dir), i.is_last = false := by
    intro i hi
    have : i ∈ (sortDesc item.node.children).map
        (fun c => FileItem.new c (item.level + 1) false) :=
      List.mem_of_mem_filter hi
    rcases List.mem_map.mp this with ⟨c, _, rfl⟩
    rfl
  unfold pushChildItems
  by_cases hok : item.node.read_dir_ok
  · simp only [if_pos hok]
    cases hfl : ((sortDesc item.node.children).map
        (fun c => FileItem.new c (item.level + 1) false)).filter
      (fun i => is_included sh ig i.file_name i.is_dir) with
    | nil => simp [markFirstLast]
    | cons x t =>
      simp only [markFirstLast, List.map_cons]
      congr 1
      apply List.eq_replicate_iff.mpr
      refine ⟨by simp, ?_⟩
      intro b hb
      rcases List.mem_map.mp hb with ⟨i, hi, rfl⟩
      apply hall
      rw [hfl]
      exact List.mem_cons_of_mem x hi
  · simp [if_neg hok]

/-- Exactly the last child of the ascending list carries `is_last = true`. -/
theorem ascChildren_is_last (sh : Bool) (ig : Option (String → Bool))
    (item : FileItem) :
    (ascChildren sh ig item).map (fun i => i.is_last)
      = if (ascChildren sh ig item).length = 0 then []
        else List.replicate ((ascChildren sh ig item).length - 1) false ++ [true] := by
  have h := pushChildItems_is_last sh ig item
  rw [ascChildren, List.map_reverse, h]
  cases hfl : pushChildItems sh ig item with
  | nil => simp
  | cons x t =>
    rw [hfl] at h
    simp [List.reverse_cons, List.length_reverse]

def tFile (n : String) : FsNode := .mk n (.ok ⟨false⟩) [] true

def tDir (n : String) (cs : List FsNode) : FsNode := .mk n (.ok ⟨true⟩) cs true

/-- A concrete snapshot: directory `r` containing the single regular file
`a.txt`. -/
def treeRA : FsNode := tDir "r" [tFile "a.txt"]

/-- A compiled matcher for the exclude pattern `a.txt`. -/
def exclTxt : String → Bool := fun n => n == "a.txt"

/-- A compiled matcher for an include pattern matching everything. -/
def incAll : String → Bool := fun _ => true

/-- Configuration with only an exclude pattern set. -/
def cfgExcl : Config := ⟨false, false, false, 10, none, some exclTxt⟩

/-- Configuration with an include pattern and an exclude pattern. -/
def cfgIncExc : Config := ⟨false, false, false, 10, some incAll, some exclTxt⟩

/-- Configuration with no patterns at all. -/
def cfgPlain : Config := ⟨false, false, false, 10, none, none⟩

/-- A root path that is itself a regular file. -/
def fileRoot : FsNode := tFile "lone.txt"

/-- A node whose `symlink_metadata()` fails. -/
def errNode : FsNode := .mk "broken" (.error ()) [] true

/-- A traversal item built from the unreadable node. -/
def errItem : FileItem := FileItem.new errNode 1 false

/-- A traversal item for an empty root directory at level 0. -/
def dirItem0 : FileItem := FileItem.new (tDir "d" []) 0 true

example :
    (runFileIterator (FileIterator.new
      (tDir "r" [tFile "b.txt", tDir "s" [tFile "a.rs"], tFile "a.txt"])
      ⟨false, false, false, 5, none, none⟩)).map FileItem.file_name
    = ["r", "a.txt", "b.txt", "s", "a.rs"] := by rfl

/-- C1: the claim says a regular file whose name matches the exclude
pattern is never emitted.  The code contradicts it (and its own
integration tests in `tests/test_exclude.rs`): `Config.exclude_glob` is
parsed and stored but never consulted — `FileIterator::new` copies only
`include_glob` — so with exclude pattern `a.txt` over the snapshot
`r/a.txt` the matching regular file `a.txt` is still emitted. -/
theorem excluded_file_still_emitted :
    cfgExcl.exclude_glob = some exclTxt ∧
    exclTxt "a.txt" = true ∧
    (runPipeline cfgExcl treeRA).map (fun i => i.file_name) = ["r", "a.txt"] ∧
    ((runPipeline cfgExcl treeRA).filter (fun i => !i.is_dir)).map
      (fun i => i.file_name) = ["a.txt"] :=
  ⟨rfl, rfl, rfl, rfl⟩

/-- C2 (counterexample): as stated, the claim glosses "emitted file" as "a
file matching the include pattern and not matching exclude".  With include
matching everything and exclude matching `a.txt`, over `r/a.txt`, the
directory `r` is emitted although no file of its subtree matches the
include pattern while not matching exclude (the lone file `a.txt` matches
exclude, yet is emitted and justifies `r`) — because the code never
applies the exclude pattern (see C1). -/
theorem elision_exclude_gloss_refuted :
    cfgIncExc.include_glob = some incAll ∧
    cfgIncExc.exclude_glob = some exclTxt ∧
    ((runPipeline cfgIncExc treeRA).filter (fun i => i.is_dir)).map
      (fun i => i.file_name) = ["r"] ∧
    (runPipeline cfgIncExc treeRA).filter
      (fun i => !i.is_dir && incAll i.file_name && !exclTxt i.file_name) = [] ∧
    ((runPipeline cfgIncExc treeRA).filter (fun i => !i.is_dir)).map
      (fun i => i.file_name) = ["a.txt"] ∧
    incAll "a.txt" = true ∧ exclTxt "a.txt" = true :=
  ⟨rfl, rfl, rfl, rfl, rfl, rfl, rfl⟩

/-- C2 (amended): when elision is active (an include pattern is set), the
pipeline's output is exactly the specification subsequence of the Walker's
output: a directory entry is emitted iff a later non-directory entry of the
input arrives while every entry in between lies strictly deeper (i.e. its
subtree contains an emitted file — a file matching the include pattern;
the exclude pattern is not applied, see C1); the order is the input order
restricted to the emitted entries, so every emitted directory precedes the
first descendant file justifying it; and (third conjunct) every file of
the input sequence is emitted exactly once, in traversal order. -/
theorem elision_emits_iff_subtree_file :
    (∀ (cfg : Config) (root : FsNode) (g : String → Bool),
        cfg.include_glob = some g →
        runPipeline cfg root
          = elisionSpecList (runFileIterator (FileIterator.new root cfg))) ∧
    (∀ xs : List FileItem, filterRun (activeInit xs) = elisionSpecList xs) ∧
    (∀ xs : List FileItem,
        (elisionSpecList xs).filter (fun i => !i.is_dir)
          = xs.filter (fun i => !i.is_dir)) := by
  refine ⟨?_, filterRun_active, elisionSpecList_files⟩
  intro cfg root g h
  unfold runPipeline get_iterator
  rw [h]
  exact filterRun_active _

/-- C2 witness: the first conjunct applied to a concrete configuration
with an include pattern. -/
theorem elision_emits_iff_subtree_file_witness :
    cfgIncExc.include_glob = some incAll ∧
    runPipeline cfgIncExc treeRA
      = elisionSpecList (runFileIterator (FileIterator.new treeRA cfgIncExc)) :=
  ⟨rfl, elision_emits_iff_subtree_file.1 cfgIncExc treeRA incAll rfl⟩

/-- C3: the Walker emits entries in strict pre-order — its run equals the
recursive pre-order emission, in which each directory's included children
follow it in ascending name order; among the included siblings of each
directory the emitted names are ascending; and exactly the last included
child in that order carries `is_last = true`. -/
theorem walker_preorder_ascending_lastmark :
    (∀ (cfg : Config) (root : FsNode),
        runFileIterator (FileIterator.new root cfg)
          = emitItem cfg.show_all cfg.max_level cfg.include_glob
              (FileItem.new root 0 true)) ∧
    (∀ (sh : Bool) (ig : Option (String → Bool)) (item : FileItem),
        ((ascChildren sh ig item).map (fun i => i.file_name)).Pairwise
          (fun a b => nameLe a b = true)) ∧
    (∀ (sh : Bool) (ig : Option (String → Bool)) (item : FileItem),
        (ascChildren sh ig item).map (fun i => i.is_last)
          = if (ascChildren sh ig item).length = 0 then []
            else List.replicate ((ascChildren sh ig item).length - 1) false
              ++ [true]) :=
  ⟨fun cfg root => runFileIterator_eq root cfg,
   ascChildren_names_pairwise, ascChildren_is_last⟩

/-- C4: when no include pattern is set the orchestrator's iterator is in
skip mode, and the `FilteredIterator` yields exactly the underlying
`FileIterator`'s sequence, unmodified. -/
theorem skip_mode_identity (cfg : Config) (root : FsNode)
    (h : cfg.include_glob = none) :
    runPipeline cfg root = runFileIterator (FileIterator.new root cfg) := by
  unfold runPipeline get_iterator
  rw [h]
  exact filterRun_skip [] none _

/-- C4 witness. -/
theorem skip_mode_identity_witness :
    cfgPlain.include_glob = none ∧
    runPipeline cfgPlain treeRA
      = runFileIterator (FileIterator.new treeRA cfgPlain) :=
  ⟨rfl, skip_mode_identity cfgPlain treeRA rfl⟩

/-- C5 (counterexample): the claim bounds the buffer size by the maximum
directory depth seen so far, but after consuming a lone root directory
(level 0) the buffer already holds one entry while the maximum directory
level seen is 0, so the bound `size ≤ max depth seen` fails at a reachable
state (the state the final, `None`-returning call leaves behind). -/
theorem elision_buffer_bound_refuted :
    ¬ (∀ t ∈ runStates (activeInit [dirItem0]),
        t.cache.length
          ≤ maxDirLevel (([dirItem0] : List FileItem).take
              (([dirItem0] : List FileItem).length - t.input.length))) := by
  intro h
  have hmem : (⟨[dirItem0], none, [], false⟩ : FilterState)
      ∈ runStates (activeInit [dirItem0]) := by
    have he : runStates (activeInit [dirItem0])
        = [activeInit [dirItem0], ⟨[dirItem0], none, [], false⟩] := rfl
    rw [he]
    simp
  have hb := h _ hmem
  have h1 : ((⟨[dirItem0], none, [], false⟩ : FilterState)).cache.length = 1 := rfl
  have h2 : maxDirLevel (([dirItem0] : List FileItem).take
      (([dirItem0] : List FileItem).length
        - (⟨[dirItem0], none, [], false⟩ : FilterState).input.length)) = 0 := rfl
  omega

/-- C5 (amended): at every state reachable during an active-mode run —
including the state the final call leaves behind — the elision buffer
holds at most one entry per directory level seen, so its size never
exceeds the maximum directory depth seen so far in the consumed input
plus one. -/
theorem elision_buffer_bound_succ (xs : List FileItem) (t : FilterState)
    (ht : t ∈ runStates (activeInit xs)) :
    t.cache.length ≤ maxDirLevel (xs.take (xs.length - t.input.length)) + 1 := by
  have hinv : FilterInv xs (activeInit xs) :=
    ⟨rfl, List.Pairwise.nil, [], rfl, by simp [activeInit]⟩
  simp only [runStates] at ht
  exact inv_cache_bound
    (runStatesAux_inv (filterMeasure (activeInit xs)) xs (activeInit xs) hinv t ht)

/-- C5 witness: the amended bound applied at a concrete reachable state. -/
theorem elision_buffer_bound_succ_witness :
    (activeInit [dirItem0] ∈ runStates (activeInit [dirItem0])) ∧
    (activeInit [dirItem0]).cache.length
      ≤ maxDirLevel (([dirItem0] : List FileItem).take
          (([dirItem0] : List FileItem).length
            - (activeInit [dirItem0]).input.length)) + 1 := by
  have hmem : activeInit [dirItem0] ∈ runStates (activeInit [dirItem0]) := by
    have he : runStates (activeInit [dirItem0])
        = [activeInit [dirItem0], ⟨[dirItem0], none, [], false⟩] := rfl
    rw [he]
    simp
  exact ⟨hmem, elision_buffer_bound_succ [dirItem0] (activeInit [dirItem0]) hmem⟩

/-- C6: the summary's folder count is the number of emitted directory
entries minus one (truncated subtraction, matching `usize::saturating_sub`
— the root is excluded), and the file count is the number of emitted
non-directory entries. -/
theorem summary_counts_eq (cfg : Config) (root : FsNode) :
    (print_folders cfg root).1.num_folders
        = (runPipeline cfg root).countP (fun i => i.is_dir) - 1 ∧
    (print_folders cfg root).1.num_files
        = (runPipeline cfg root).countP (fun i => !i.is_dir) := by
  rcases foldl_printStep_counts (runPipeline cfg root)
    (DirSummary.init, [], []) with ⟨h1, h2⟩
  constructor
  · simp only [print_folders]
    rw [h1]
    simp [DirSummary.init]
  · simp only [print_folders]
    rw [h2]
    simp [DirSummary.init]

/-- C7: the prefix renderer emits, for every index except the last, the
vertical-bar glyph plus 3 spaces when `true` and 4 spaces when `false`,
and for the final index the tee glyph (`true`) or the corner glyph
(`false`) followed by two horizontal-line glyphs and one space; the empty
vector yields the empty string.  Determinism is inherent: the embedded
renderer is a pure function of the switch list (the shared buffer is
cleared on entry). -/
theorem prefix_renderer_meets_spec :
    (∀ l : List Bool, set_line_prefix_str l = String.mk (renderPrefixSpecChars l)) ∧
    set_line_prefix_str [] = "" :=
  ⟨fun l => congrArg String.mk (set_line_prefix_chars_eq_spec l), rfl⟩

/-- C8: an entry whose metadata read failed is treated as a non-directory
(`is_dir` is `false`), is rendered with the literal error marker instead
of the styled name, is still emitted by the Walker's `next` without being
expanded (the queue is left untouched apart from the pop), and increments
the file counter of the summary. -/
theorem metadata_error_entry_behavior (e : FileItem) (err : Unit)
    (h : e.metadata = Except.error err) (q : List FileItem) (sh : Bool)
    (ml : Nat) (ig : Option (String → Bool)) (sm : DirSummary) (pfx : String) :
    e.is_dir = false ∧
    print_line e pfx = pfx ++ (e.file_name ++ " [Error File]") ∧
    fileIterNext ⟨e :: q, sh, ml, ig⟩ = some (e, ⟨q, sh, ml, ig⟩) ∧
    countStep sm e = { sm with num_files := sm.num_files + 1 } := by
  have hdir : e.is_dir = false := by
    unfold FileItem.is_dir
    rw [h]
  refine ⟨hdir, ?_, ?_, ?_⟩
  · unfold print_line
    rw [h]
  · unfold fileIterNext
    simp [hdir]
  · unfold countStep
    rw [hdir]
    simp

/-- C8 witness. -/
theorem metadata_error_entry_behavior_witness :
    errItem.metadata = Except.error () ∧
    (errItem.is_dir = false ∧
     print_line errItem "" = "" ++ (errItem.file_name ++ " [Error File]") ∧
     fileIterNext ⟨[errItem], false, 5, none⟩
       = some (errItem, ⟨[], false, 5, none⟩) ∧
     countStep DirSummary.init errItem
       = { DirSummary.init with num_files := DirSummary.init.num_files + 1 }) :=
  ⟨rfl, metadata_error_entry_behavior errItem () rfl [] false 5 none
    DirSummary.init ""⟩

/-- C9: the Walker's first yielded item is always the root item, built
with level 0 and `is_last = true` — for every configuration, so the
hidden-name and include-pattern filters (which apply only to children in
`push_dir`) never suppress it. -/
theorem root_entry_first_unfiltered (cfg : Config) (root : FsNode) :
    (runFileIterator (FileIterator.new root cfg)).head?
        = some (FileItem.new root 0 true) ∧
    (FileItem.new root 0 true).level = 0 ∧
    (FileItem.new root 0 true).is_last = true := by
  refine ⟨?_, rfl, rfl⟩
  rw [runFileIterator_eq, emitItem, emitItems_cons]
  rfl

/-- C10: the root subtraction saturates at zero: when no directory entry
was emitted at all, the summary reports 0 directories. -/
theorem folder_count_saturates (cfg : Config) (root : FsNode)
    (h : (runPipeline cfg root).countP (fun i => i.is_dir) = 0) :
    (print_folders cfg root).1.num_folders = 0 := by
  rcases foldl_printStep_counts (runPipeline cfg root)
    (DirSummary.init, [], []) with ⟨h1, _⟩
  simp only [print_folders]
  rw [h1, h]
  rfl

/-- C10 witness: a root that is a plain file yields zero directory
entries, and the summary still reports 0 directories. -/
theorem folder_count_saturates_witness :
    (runPipeline cfgPlain fileRoot).countP (fun i => i.is_dir) = 0 ∧
    (print_folders cfgPlain fileRoot).1.num_folders = 0 :=
  ⟨rfl, folder_count_saturates cfgPlain fileRoot rfl⟩

end TreeCli
